import Mathlib

/- Verification development for the webtranspose local ("lite") crawler,
   embedded from src/webtranspose/crawl.py.

   The crawler's pure logic is translated into executable Lean definitions:

   * URL normalization (the worker's inner _lint_url) calls Python's
     urllib.parse.urlparse / urlunparse.  Both layers are modelled: the
     split and unsplit algorithms follow CPython's urllib.parse.urlsplit
     and urlunsplit (scheme detection with lowercasing, netloc extraction
     after a leading double slash, fragment partition, query partition),
     and urlparse / urlunparse add the params split on the last path
     segment for params-using schemes and the rejoin of nonempty params.
     The composition therefore drops the semicolon of an empty trailing
     params component, exactly as CPython does (http://a.com/x; becomes
     http://a.com/x).  CPython's urlsplit raises ValueError on some
     inputs (unbalanced IPv6 brackets, bracketed-host validation in newer
     versions, NFKC checks on non-ASCII netlocs); the model is a total
     function and the predicate urlsplitOk delimits a domain of netlocs
     (all ASCII, no brackets) on which no error path of the program can
     fire, and the claims about _lint_url are stated on that domain.
     URLs are modelled as lists of characters; String wrappers are
     provided.

   * Glob filtering (fnmatch.fnmatch on a POSIX system, where case
     normalization is the identity) is modelled for the star and
     question-mark wildcards plus literal characters; bracket character
     classes do not occur in any pattern considered here.

   * The worker loop (Crawl.crawl_worker), the local branch of
     Crawl.crawl, get_queued, status, to_metadata and from_metadata are
     modelled as functions over an explicit Crawl record, with the HTTP
     fetch, HTML parse and urljoin collaborators abstracted into a
     parameter returning either a transport failure, a parsed page with its
     outbound absolute link strings, or a non-parsable response.  The
     single-worker (n_workers = 1) deterministic schedule is modelled;
     JSON (de)serialization of the metadata sidecar is modelled as the
     identity on a metadata record. -/

namespace WebT

/-! Characters significant to urlsplit. -/

/-- Characters allowed in a URL scheme after the initial letter
(Python scheme_chars: ASCII letters, digits, plus, minus, dot). -/
def schemeChar (c : Char) : Bool :=
  c.isAlpha || c.isDigit || c == '+' || c == '-' || c == '.'

/-- Characters that terminate the netloc portion (Python _splitnetloc
stops at the first of these). -/
def netlocStop (c : Char) : Bool :=
  c == '/' || c == '?' || c == '#'

/-- Split a character list at the first occurrence of a separator;
none when the separator does not occur. -/
def splitOnFirst (sep : Char) : List Char → Option (List Char × List Char)
  | [] => none
  | c :: cs =>
    if c = sep then some ([], cs)
    else
      match splitOnFirst sep cs with
      | some (pre, rest) => some (c :: pre, rest)
      | none => none

/-- Python str.partition on a single-character separator, keeping only the
before and after parts. -/
def partitionOn (sep : Char) (l : List Char) : List Char × List Char :=
  match splitOnFirst sep l with
  | some (pre, rest) => (pre, rest)
  | none => (l, [])

/-- Validity test for the text before the first colon to count as a scheme:
nonempty, initial ASCII letter, remaining characters scheme characters. -/
def checkPre (pre : List Char) : Bool :=
  match pre with
  | [] => false
  | c :: cs => c.isAlpha && cs.all schemeChar

/-- Scheme detection of urlsplit: if the text before the first colon is a
valid scheme, return it lowercased together with the remainder, otherwise
no scheme and the input unchanged. -/
def parseScheme (url : List Char) : List Char × List Char :=
  match splitOnFirst ':' url with
  | some (pre, rest) =>
    if checkPre pre then (pre.map Char.toLower, rest) else ([], url)
  | none => ([], url)

/-- Take characters into the netloc until a terminating character. -/
def takeNetloc : List Char → List Char × List Char
  | [] => ([], [])
  | c :: cs =>
    if netlocStop c then ([], c :: cs)
    else
      let p := takeNetloc cs
      (c :: p.1, p.2)

/-- Netloc extraction of urlsplit: only when the remainder starts with a
double slash. -/
def parseNetloc (url : List Char) : List Char × List Char :=
  match url with
  | '/' :: '/' :: rest => takeNetloc rest
  | _ => ([], url)

/-- The five components produced by urlsplit. -/
structure UrlParts where
  scheme : List Char
  netloc : List Char
  path : List Char
  query : List Char
  fragment : List Char
deriving Repr, DecidableEq

/-- CPython urllib.parse.urlsplit: scheme, then netloc, then fragment
partition, then query partition. -/
def urlsplitL (url : List Char) : UrlParts :=
  let s := parseScheme url
  let n := parseNetloc s.2
  let f := partitionOn '#' n.2
  let pq := partitionOn '?' f.1
  ⟨s.1, n.1, pq.1, pq.2, f.2⟩

/-- CPython urllib.parse.urlunsplit. -/
def urlunsplitL (p : UrlParts) : List Char :=
  let u1 :=
    if p.netloc ≠ [] ∨ (p.path ≠ [] ∧ p.path.take 2 = ['/', '/']) then
      '/' :: '/' :: (p.netloc ++
        (if p.path ≠ [] ∧ p.path.head? ≠ some '/' then '/' :: p.path else p.path))
    else p.path
  let u2 := if p.scheme ≠ [] then p.scheme ++ ':' :: u1 else u1
  let u3 := if p.query ≠ [] then u2 ++ '?' :: p.query else u2
  if p.fragment ≠ [] then u3 ++ '#' :: p.fragment else u3

/-- The scheme-free portion of an unsplit URL with empty fragment: the
netloc and path assembly of urlunsplit followed by the optional query
(a normal form used by the round-trip proofs). -/
def unsplitCore (nl p q : List Char) : List Char :=
  (if nl ≠ [] ∨ (p ≠ [] ∧ p.take 2 = ['/', '/']) then
    '/' :: '/' :: (nl ++ (if p ≠ [] ∧ p.head? ≠ some '/' then '/' :: p else p))
  else p) ++ (if q ≠ [] then '?' :: q else [])

/-- Split a character list at the last occurrence of a separator (the
first occurrence in the reversed list); none when the separator does not
occur. -/
def splitOnLast (sep : Char) (l : List Char) : Option (List Char × List Char) :=
  match splitOnFirst sep l.reverse with
  | some pr => some (pr.2.reverse, pr.1.reverse)
  | none => none

/-- CPython urllib.parse._splitparams: split the params from the last
path segment, the text after the first semicolon following the last
slash (or after the first semicolon when the path has no slash).  When
no such semicolon exists the path is returned with empty params; the
caller (urlparse) only invokes this when the path contains a
semicolon. -/
def splitparamsL (url : List Char) : List Char × List Char :=
  match splitOnLast '/' url with
  | some pr =>
    match splitOnFirst ';' pr.2 with
    | some ab => (pr.1 ++ '/' :: ab.1, ab.2)
    | none => (url, [])
  | none =>
    match splitOnFirst ';' url with
    | some ab => (ab.1, ab.2)
    | none => (url, [])

/-- CPython urllib.parse.uses_params: the schemes whose paths carry a
params component (note the empty scheme is included). -/
def usesParams : List (List Char) :=
  [[], "ftp".toList, "hdl".toList, "prospero".toList, "http".toList,
    "imap".toList, "https".toList, "shttp".toList, "rtsp".toList,
    "rtspu".toList, "sip".toList, "sips".toList, "mms".toList,
    "sftp".toList, "tel".toList]

/-- The effect of urlparse followed by urlunparse on the path component:
for a params-using scheme, split the params off the last segment and
rejoin them with a semicolon when nonempty.  This is the identity except
that the semicolon of an empty trailing params component is dropped
(urlunparse only rejoins truthy params). -/
def paramsRoundtrip (scheme path : List Char) : List Char :=
  if ';' ∈ path ∧ scheme ∈ usesParams then
    if (splitparamsL path).2 ≠ [] then
      (splitparamsL path).1 ++ ';' :: (splitparamsL path).2
    else (splitparamsL path).1
  else path

/-- The six components produced by urlparse. -/
structure UrlParseParts where
  scheme : List Char
  netloc : List Char
  path : List Char
  params : List Char
  query : List Char
  fragment : List Char
deriving Repr, DecidableEq

/-- CPython urllib.parse.urlparse: urlsplit followed by the params split
on the path, applied when the path holds a semicolon and the scheme uses
params. -/
def urlparseL (url : List Char) : UrlParseParts :=
  let s := urlsplitL url
  if ';' ∈ s.path ∧ s.scheme ∈ usesParams then
    ⟨s.scheme, s.netloc, (splitparamsL s.path).1, (splitparamsL s.path).2,
      s.query, s.fragment⟩
  else ⟨s.scheme, s.netloc, s.path, [], s.query, s.fragment⟩

/-- CPython urllib.parse.urlunparse: rejoin nonempty params onto the
path with a semicolon, then urlunsplit. -/
def urlunparseL (r : UrlParseParts) : List Char :=
  urlunsplitL ⟨r.scheme, r.netloc,
    (if r.params ≠ [] then r.path ++ ';' :: r.params else r.path),
    r.query, r.fragment⟩

/-- The worker's inner _lint_url: urlparse, clear the fragment,
urlunparse. -/
def lintL (url : List Char) : List Char :=
  urlunparseL { urlparseL url with fragment := [] }

/-- Domain predicate of the modelled urlsplit.  CPython urlsplit raises
ValueError when the netloc has unbalanced square brackets, validates a
bracketed host (newer versions), and applies NFKC-based checks to a
non-ASCII netloc (_checknetloc); on an all-ASCII netloc containing no
brackets none of these error paths can fire, so on this domain the
total model and the program agree.  Claims about _lint_url are stated
on this domain. -/
def urlsplitOk (url : List Char) : Bool :=
  (urlsplitL url).netloc.all
    (fun c => decide (c.toNat < 128) && !(c == '[') && !(c == ']'))

/-- _lint_url on Lean strings. -/
def lint_url (s : String) : String :=
  String.mk (lintL s.toList)

/-- Netloc of a URL given as a string (urlparse(url).netloc). -/
def netlocOf (s : String) : List Char :=
  (urlsplitL s.toList).netloc

/-! Shell-style glob matching (fnmatch.fnmatch on POSIX, where case
normalization is the identity).  Star matches any sequence, question mark
any single character, other characters literally; bracket classes are not
modelled (no pattern in this development uses them). -/

/-- Matching loop for a star: try the remaining pattern against every
suffix of the text. -/
def starLoop (k : List Char → Bool) : List Char → Bool
  | [] => k []
  | c :: cs => k (c :: cs) || starLoop k cs

def globMatch (p : List Char) : List Char → Bool :=
  match p with
  | [] => fun s => s.isEmpty
  | '*' :: ps => starLoop (globMatch ps)
  | '?' :: ps => fun s =>
    match s with
    | [] => false
    | _ :: cs => globMatch ps cs
  | pc :: ps => fun s =>
    match s with
    | [] => false
    | c :: cs => pc == c && globMatch ps cs

/-- fnmatch(name, pat). -/
def fnmatch (name pat : String) : Bool :=
  globMatch pat.toList name.toList

/-! Page record filenames (urllib.parse.quote_plus followed by replacing
slashes with underscores, then joining under output_dir and the base
netloc).  No claim depends on the encoded text, but the encoding is
modelled faithfully over the UTF-8 bytes of the URL. -/

/-- Uppercase hexadecimal digit for a value below 16. -/
def hexDigit (n : Nat) : Char :=
  if n < 10 then Char.ofNat (48 + n) else Char.ofNat (55 + n)

/-- quote_plus treatment of a single UTF-8 byte: ASCII letters, digits and
the characters underscore, dot, minus, tilde pass through; a space becomes
a plus; every other byte is percent-encoded. -/
def quoteByte (b : UInt8) : List Char :=
  let n := b.toNat
  if (65 ≤ n ∧ n ≤ 90) ∨ (97 ≤ n ∧ n ≤ 122) ∨ (48 ≤ n ∧ n ≤ 57) ∨
      n = 95 ∨ n = 46 ∨ n = 45 ∨ n = 126 then [Char.ofNat n]
  else if n = 32 then ['+']
  else ['%', hexDigit (n / 16), hexDigit (n % 16)]

/-- urllib.parse.quote_plus. -/
def quote_plus (s : String) : String :=
  String.mk (s.toUTF8.toList.map quoteByte).flatten

/-- Replace every slash by an underscore (the .replace call after
quote_plus; the pattern is a single character, so a character map is
exact). -/
def slashToUnderscore (s : String) : String :=
  String.mk (s.toList.map (fun c => if c == '/' then '_' else c))

/-- The file path the worker stores a page record under:
output_dir/<base netloc>/<quote_plus(url) with slashes replaced>.json. -/
def recordPath (output_dir base_url url : String) : String :=
  output_dir ++ "/" ++ String.mk (netlocOf base_url) ++ "/" ++
    slashToUnderscore (quote_plus url) ++ ".json"

/-! The Crawl data model (local, no API key). -/

/-- A frontier work item: the url together with the parent chain
(the dicts put on the asyncio queue). -/
structure Item where
  url : String
  parent_urls : List String
deriving Repr, DecidableEq

/-- The Crawl object's fields relevant to local mode.  The visited map is
an insertion-ordered association list from URL to record file path, the
failed set an insertion-ordered duplicate-free list, the ignored
collection a plain list (a set at construction, a list after a run). -/
structure Crawl where
  base_url : String
  allowed_urls : List String
  banned_urls : List String
  max_pages : Nat
  queue : List Item
  output_dir : String
  visited_urls : List (String × String)
  failed_urls : List String
  ignored_urls : List String
  n_workers : Nat
  render_js : Bool
  crawl_id : String
deriving Repr, DecidableEq

/-- Python set.add on the list model of a set. -/
def setAdd (l : List String) (u : String) : List String :=
  if l.contains u then l else l ++ [u]

/-- Outcome of the abstracted fetch / parse collaborators for one URL:
a transport failure (the except around client.get), a parsed HTML page
carrying its outbound link strings already resolved to absolute form by
urljoin against the base URL (but not yet linted), or a response whose
parsing raised (page_type other). -/
inductive FetchResult where
  | fail
  | page (hrefs : List String)
  | other
deriving Repr, DecidableEq

/-- The three-way routing of a dequeued URL in crawl_worker:
the main if takes in-scope, unvisited URLs below the cap (crawlable);
the elif routes unvisited same-origin-or-allowed URLs to the leftover
queue; everything else goes to the ignored queue. -/
inductive UrlClass where
  | crawlable
  | leftover
  | ignored
deriving Repr, DecidableEq

/-- Does the URL start with the four characters http (the
url.startswith check guarding re-enqueueing of child links)? -/
def startsHttp (s : String) : Bool :=
  match s.toList with
  | 'h' :: 't' :: 't' :: 'p' :: _ => true
  | _ => false

/-- The branch conditions of crawl_worker, lines 134-144 and 202-214:
crawlable when ((same netloc as base and no banned glob matches) or some
allowed glob matches) and the URL is unvisited and the visited count is
below max_pages; otherwise leftover when the URL is unvisited and (same
netloc or some allowed glob matches); otherwise ignored. -/
def classifyUrl (base_url : String) (allowed_urls banned_urls : List String)
    (visited : List String) (max_pages : Nat) (u : String) : UrlClass :=
  if ((netlocOf u == netlocOf base_url &&
        !(banned_urls.any (fun b => fnmatch u b))) ||
      allowed_urls.any (fun a => fnmatch u a)) &&
      !(visited.contains u) && decide (visited.length < max_pages) then
    .crawlable
  else if !(visited.contains u) &&
      (netlocOf u == netlocOf base_url ||
        allowed_urls.any (fun a => fnmatch u a)) then
    .leftover
  else
    .ignored

/-- State threaded through a local crawl run: the Crawl object (whose
queue, visited map and failed set the worker mutates), the leftover and
ignored queues local to the crawl() call, and the list of page record
files written so far (url together with the recorded child_urls list). -/
structure RunState where
  crawl : Crawl
  leftover : List Item
  ignored : List String
  records : List (String × List String)
deriving Repr, DecidableEq

/-- One iteration of the single worker's loop body (crawl_worker lines
130-216) on the frontier head.  On a crawlable URL: a transport failure
adds the URL to the failed set and moves on; a parsed page computes the
linted, de-duplicated child list, re-enqueues the children that start
with http (with the parent chain extended by the current URL), marks the
URL visited and writes its record; a non-parsable response marks the URL
visited and writes a record with no children.  Otherwise the item goes to
the leftover or ignored queue. -/
def crawlStep (fetch : String → FetchResult) (s : RunState) : RunState :=
  match s.crawl.queue with
  | [] => s
  | item :: rest =>
    let c := s.crawl
    let u := item.url
    match classifyUrl c.base_url c.allowed_urls c.banned_urls
        (c.visited_urls.map Prod.fst) c.max_pages u with
    | .crawlable =>
      match fetch u with
      | .fail =>
        { s with crawl := { c with queue := rest, failed_urls := setAdd c.failed_urls u } }
      | .page hrefs =>
        let children := (hrefs.map lint_url).dedup
        let newItems := (children.filter startsHttp).map
          (fun cu => Item.mk cu (item.parent_urls ++ [u]))
        { s with
          crawl := { c with
            queue := rest ++ newItems,
            visited_urls := c.visited_urls ++ [(u, recordPath c.output_dir c.base_url u)] },
          records := s.records ++ [(u, children)] }
      | .other =>
        { s with
          crawl := { c with
            queue := rest,
            visited_urls := c.visited_urls ++ [(u, recordPath c.output_dir c.base_url u)] },
          records := s.records ++ [(u, [])] }
    | .leftover =>
      { s with crawl := { c with queue := rest }, leftover := s.leftover ++ [item] }
    | .ignored =>
      { s with crawl := { c with queue := rest }, ignored := s.ignored ++ [u] }

/-- Iterate the worker until the frontier queue is empty (the
queue.join barrier of crawl(); with a single worker the join fires
exactly when the frontier has drained), within the given fuel. -/
def crawlRun (fetch : String → FetchResult) : Nat → RunState → RunState
  | 0, s => s
  | fuel + 1, s =>
    if s.crawl.queue = [] then s
    else crawlRun fetch fuel (crawlStep fetch s)

/-- The local branch of Crawl.crawl (lines 267-297): run the worker to
completion, then install the leftover queue as the new frontier and the
ignored queue contents as ignored_urls.  Returns the finalized Crawl
together with the page record files written.  The function always returns;
the local branch contains no raise statement (the first-page-failure
raise at line 308 lives in the cloud branch only). -/
def crawl_local (fetch : String → FetchResult) (fuel : Nat) (c : Crawl) :
    Crawl × List (String × List String) :=
  let r := crawlRun fetch fuel ⟨c, [], [], []⟩
  ({ r.crawl with queue := r.leftover, ignored_urls := r.ignored }, r.records)

/-- The dequeue loop of get_queued: up to max_pages get_nowait calls,
stopping early when the queue is empty. -/
def popLoop : Nat → List Item → List Item × List Item
  | 0, q => ([], q)
  | _ + 1, [] => ([], [])
  | k + 1, x :: q =>
    let p := popLoop k q
    (x :: p.1, p.2)

/-- Local branch of Crawl.get_queued: pop up to max_pages items, then
put each popped item back at the tail of the queue in order; returns the
popped items and the queue afterwards. -/
def get_queued (c : Crawl) (max_pages : Nat) : List Item × Crawl :=
  let p := popLoop max_pages c.queue
  (p.1, { c with queue := p.2 ++ p.1 })

/-- The status dict of the local (not created) branch of Crawl.status. -/
structure StatusRec where
  crawl_id : String
  loc : String
  base_url : String
  max_pages : Nat
  num_visited : Nat
  num_ignored : Nat
  num_failed : Nat
  num_queued : Nat
  banned_urls : List String
  allowed_urls : List String
  n_workers : Nat
deriving Repr, DecidableEq

/-- Local Crawl.status: build the counts dict from the current collection
sizes and configuration; the method only reads, so the Crawl comes back
unchanged (modelled by returning it alongside the result). -/
def status (c : Crawl) : StatusRec × Crawl :=
  (⟨c.crawl_id, "local", c.base_url, c.max_pages, c.visited_urls.length,
    c.ignored_urls.length, c.failed_urls.length, c.queue.length,
    c.banned_urls, c.allowed_urls, c.n_workers⟩, c)

/-- The metadata sidecar written by to_metadata (JSON serialization of
this record is modelled as the identity). -/
structure CrawlMeta where
  crawl_id : String
  n_workers : Nat
  base_url : String
  max_pages : Nat
  visited_urls : List (String × String)
  ignored_urls : List String
  render_js : Bool
  queue : List Item
  banned_urls : List String
  allowed_urls : List String
  output_dir : String
deriving Repr, DecidableEq

/-- Crawl.to_metadata: serialize configuration and progress. -/
def to_metadata (c : Crawl) : CrawlMeta :=
  ⟨c.crawl_id, c.n_workers, c.base_url, c.max_pages, c.visited_urls,
    c.ignored_urls, c.render_js, c.queue, c.banned_urls, c.allowed_urls,
    c.output_dir⟩

/-- Crawl.from_metadata: construct a Crawl from the sidecar.  The
constructor seeds the queue with the base URL, but from_metadata replaces
the queue with a fresh one filled from the saved list; the ignored list
is rebuilt as a Python set (modelled by dedup); the failed set starts
empty (it is not serialized). -/
def from_metadata (m : CrawlMeta) : Crawl :=
  { base_url := m.base_url
    allowed_urls := m.allowed_urls
    banned_urls := m.banned_urls
    max_pages := m.max_pages
    queue := m.queue
    output_dir := m.output_dir
    visited_urls := m.visited_urls
    failed_urls := []
    ignored_urls := m.ignored_urls.dedup
    n_workers := m.n_workers
    render_js := m.render_js
    crawl_id := m.crawl_id }

/-! Concrete instances used by witnesses and counterexamples. -/

/-- A freshly constructed local Crawl on base URL http a.com: the
constructor seeds the frontier with the base URL and empty parent chain
and leaves every collection empty. -/
def exCrawl : Crawl :=
  ⟨"http://a.com", [], [], 15, [⟨"http://a.com", []⟩], "out", [], [], [], 1,
    false, "id"⟩

/-- A transport layer on which every fetch attempt fails. -/
def fetchAllFail : String → FetchResult := fun _ => .fail

/-- A site whose only page links back to itself. -/
def fetchSelfLink : String → FetchResult := fun u =>
  if u == "http://a.com" then .page ["http://a.com"] else .fail

/-- A site whose only page carries a single mailto link. -/
def fetchMailto : String → FetchResult := fun u =>
  if u == "http://a.com" then .page ["mailto:a@b.c"] else .fail

/-- Loose scope condition of the worker's elif: same netloc as the base
URL, or some allowed glob matches. -/
def looseScope (base : String) (allowed : List String) (u : String) : Bool :=
  netlocOf u == netlocOf base || allowed.any (fun x => fnmatch u x)

/-- Run invariant behind the partition property: every failed URL fails
to fetch and is loosely in scope, every visited URL does not fail to
fetch, and every ignored URL either does not fail to fetch (it was
already visited when re-dequeued) or is out of loose scope. -/
def DisjointInv (f : String → FetchResult) (base : String)
    (allowed : List String) (s : RunState) : Prop :=
  (∀ u ∈ s.crawl.failed_urls, f u = .fail ∧ looseScope base allowed u = true) ∧
  (∀ u ∈ s.crawl.visited_urls.map Prod.fst, f u ≠ .fail) ∧
  (∀ u ∈ s.ignored, f u ≠ .fail ∨ looseScope base allowed u = false)

/-! Supporting lemmas about the crawl model. -/

/-- The dequeue loop of get_queued takes exactly the first max_pages
items and leaves the rest. -/
theorem popLoop_eq (k : Nat) (q : List Item) :
    popLoop k q = (q.take k, q.drop k) := by
  induction k generalizing q with
  | zero => simp [popLoop]
  | succ n ih =>
    cases q with
    | nil => simp [popLoop]
    | cons x xs => simp [popLoop, ih]

/-- A crawlable classification implies the visited count was below the
cap. -/
theorem classify_crawlable_lt {b : String} {a bn : List String}
    {v : List String} {m : Nat} {u : String}
    (h : classifyUrl b a bn v m u = .crawlable) : v.length < m := by
  unfold classifyUrl at h
  split at h
  · rename_i hcond
    simp only [Bool.and_eq_true, decide_eq_true_eq] at hcond
    exact hcond.2
  · split at h <;> simp_all

/-- A crawlable classification implies the URL was not yet visited. -/
theorem classify_crawlable_unvisited {b : String} {a bn : List String}
    {v : List String} {m : Nat} {u : String}
    (h : classifyUrl b a bn v m u = .crawlable) : v.contains u = false := by
  unfold classifyUrl at h
  split at h
  · rename_i hcond
    simp only [Bool.and_eq_true, Bool.not_eq_eq_eq_not, Bool.not_true] at hcond
    exact hcond.1.2
  · split at h <;> simp_all

/-- A crawlable classification implies the loose scope condition (same
netloc as the base, or some allowed glob matches). -/
theorem classify_crawlable_scope {b : String} {a bn : List String}
    {v : List String} {m : Nat} {u : String}
    (h : classifyUrl b a bn v m u = .crawlable) :
    (netlocOf u == netlocOf b || a.any (fun x => fnmatch u x)) = true := by
  unfold classifyUrl at h
  split at h
  · rename_i hcond
    simp only [Bool.and_eq_true, Bool.or_eq_true] at hcond
    rcases hcond.1.1 with ⟨hsame, _⟩ | hallow
    · simp [hsame]
    · simp [hallow]
  · split at h <;> simp_all

/-- An ignored classification means the URL was already visited or fails
the loose scope condition. -/
theorem classify_ignored_inv {b : String} {a bn : List String}
    {v : List String} {m : Nat} {u : String}
    (h : classifyUrl b a bn v m u = .ignored) :
    v.contains u = true ∨
      (netlocOf u == netlocOf b || a.any (fun x => fnmatch u x)) = false := by
  unfold classifyUrl at h
  split at h
  · simp_all
  · split at h
    · simp_all
    · rename_i h2
      by_cases hcv : v.contains u = true
      · exact Or.inl hcv
      · right
        by_cases hsc : (netlocOf u == netlocOf b || a.any (fun x => fnmatch u x)) = true
        · exfalso
          apply h2
          rw [Bool.not_eq_true] at hcv
          simp only [hcv, hsc]
          rfl
        · simpa using hsc

/-- The worker step never changes the crawl configuration. -/
theorem crawlStep_cfg (f : String → FetchResult) (s : RunState) :
    (crawlStep f s).crawl.base_url = s.crawl.base_url ∧
    (crawlStep f s).crawl.allowed_urls = s.crawl.allowed_urls ∧
    (crawlStep f s).crawl.banned_urls = s.crawl.banned_urls ∧
    (crawlStep f s).crawl.max_pages = s.crawl.max_pages := by
  unfold crawlStep
  split
  · exact ⟨rfl, rfl, rfl, rfl⟩
  · dsimp only
    split
    · split <;> exact ⟨rfl, rfl, rfl, rfl⟩
    · exact ⟨rfl, rfl, rfl, rfl⟩
    · exact ⟨rfl, rfl, rfl, rfl⟩

/-- A whole run never changes the crawl configuration. -/
theorem crawlRun_cfg (f : String → FetchResult) (n : Nat) (s : RunState) :
    (crawlRun f n s).crawl.base_url = s.crawl.base_url ∧
    (crawlRun f n s).crawl.allowed_urls = s.crawl.allowed_urls ∧
    (crawlRun f n s).crawl.banned_urls = s.crawl.banned_urls ∧
    (crawlRun f n s).crawl.max_pages = s.crawl.max_pages := by
  induction n generalizing s with
  | zero => exact ⟨rfl, rfl, rfl, rfl⟩
  | succ k ih =>
    unfold crawlRun
    split
    · exact ⟨rfl, rfl, rfl, rfl⟩
    · obtain ⟨h1, h2, h3, h4⟩ := ih (crawlStep f s)
      obtain ⟨g1, g2, g3, g4⟩ := crawlStep_cfg f s
      exact ⟨h1.trans g1, h2.trans g2, h3.trans g3, h4.trans g4⟩

/-- One worker step keeps the visited count within the cap: the
crawlable branch is guarded by the count being strictly below
max_pages. -/
theorem crawlStep_visited_le (f : String → FetchResult) (s : RunState)
    (h : s.crawl.visited_urls.length ≤ s.crawl.max_pages) :
    (crawlStep f s).crawl.visited_urls.length ≤ s.crawl.max_pages := by
  unfold crawlStep
  split
  · exact h
  · rename_i item rest hq
    dsimp only
    split
    · rename_i hc
      split
      · exact h
      · have := classify_crawlable_lt hc
        simpa using this
      · have := classify_crawlable_lt hc
        simpa using this
    · exact h
    · exact h

/-- A whole run keeps the visited count within the cap. -/
theorem crawlRun_visited_le (f : String → FetchResult) (n : Nat) (s : RunState)
    (h : s.crawl.visited_urls.length ≤ s.crawl.max_pages) :
    (crawlRun f n s).crawl.visited_urls.length ≤ s.crawl.max_pages := by
  induction n generalizing s with
  | zero => exact h
  | succ k ih =>
    unfold crawlRun
    split
    · exact h
    · have hstep := crawlStep_visited_le f s h
      have hm := (crawlStep_cfg f s).2.2.2
      have := ih (crawlStep f s) (by rw [hm]; exact hstep)
      rw [hm] at this
      exact this

/-- When every fetch fails, a worker step leaves the visited map
untouched. -/
theorem crawlStep_visited_of_allfail (f : String → FetchResult)
    (hf : ∀ u, f u = .fail) (s : RunState) :
    (crawlStep f s).crawl.visited_urls = s.crawl.visited_urls := by
  unfold crawlStep
  split
  · rfl
  · dsimp only
    split
    · split
      · rfl
      · rename_i hpage
        rw [hf _] at hpage
        exact absurd hpage (by simp)
      · rename_i hother
        rw [hf _] at hother
        exact absurd hother (by simp)
    · rfl
    · rfl

/-- When every fetch fails, a whole run leaves the visited map
untouched. -/
theorem crawlRun_visited_of_allfail (f : String → FetchResult)
    (hf : ∀ u, f u = .fail) (n : Nat) (s : RunState) :
    (crawlRun f n s).crawl.visited_urls = s.crawl.visited_urls := by
  induction n generalizing s with
  | zero => rfl
  | succ k ih =>
    unfold crawlRun
    split
    · rfl
    · exact (ih (crawlStep f s)).trans (crawlStep_visited_of_allfail f hf s)

/-- A worker step preserves the disjointness invariant. -/
theorem crawlStep_disjointInv (f : String → FetchResult) (base : String)
    (allowed : List String) (s : RunState)
    (hb : s.crawl.base_url = base) (ha : s.crawl.allowed_urls = allowed)
    (hinv : DisjointInv f base allowed s) :
    DisjointInv f base allowed (crawlStep f s) := by
  obtain ⟨hfd, hvs, hig⟩ := hinv
  unfold crawlStep
  split
  · exact ⟨hfd, hvs, hig⟩
  · rename_i item rest hq
    dsimp only
    split
    · rename_i hc
      split
      · rename_i hfail
        refine ⟨?_, hvs, hig⟩
        intro u hu
        unfold setAdd at hu
        split at hu
        · exact hfd u hu
        · rw [List.mem_append] at hu
          rcases hu with hu | hu
          · exact hfd u hu
          · simp only [List.mem_singleton] at hu
            subst hu
            refine ⟨hfail, ?_⟩
            have hs := classify_crawlable_scope hc
            rw [hb, ha] at hs
            exact hs
      · rename_i hpage
        refine ⟨hfd, ?_, hig⟩
        intro u hu
        rw [List.map_append, List.mem_append] at hu
        rcases hu with hu | hu
        · exact hvs u hu
        · simp only [List.map_cons, List.map_nil, List.mem_singleton] at hu
          subst hu
          intro heq
          rw [heq] at hpage
          exact absurd hpage (by simp)
      · rename_i hother
        refine ⟨hfd, ?_, hig⟩
        intro u hu
        rw [List.map_append, List.mem_append] at hu
        rcases hu with hu | hu
        · exact hvs u hu
        · simp only [List.map_cons, List.map_nil, List.mem_singleton] at hu
          subst hu
          intro heq
          rw [heq] at hother
          exact absurd hother (by simp)
    · exact ⟨hfd, hvs, hig⟩
    · rename_i hcls
      refine ⟨hfd, hvs, ?_⟩
      intro u hu
      rw [List.mem_append] at hu
      rcases hu with hu | hu
      · exact hig u hu
      · simp only [List.mem_singleton] at hu
        subst hu
        rcases classify_ignored_inv hcls with hvv | hsc
        · left
          apply hvs
          simpa using hvv
        · right
          rw [hb, ha] at hsc
          exact hsc

/-- A whole run preserves the disjointness invariant. -/
theorem crawlRun_disjointInv (f : String → FetchResult) (base : String)
    (allowed : List String) (n : Nat) (s : RunState)
    (hb : s.crawl.base_url = base) (ha : s.crawl.allowed_urls = allowed)
    (hinv : DisjointInv f base allowed s) :
    DisjointInv f base allowed (crawlRun f n s) := by
  induction n generalizing s with
  | zero => exact hinv
  | succ k ih =>
    unfold crawlRun
    split
    · exact hinv
    · exact ih (crawlStep f s) ((crawlStep_cfg f s).1.trans hb)
        ((crawlStep_cfg f s).2.1.trans ha)
        (crawlStep_disjointInv f base allowed s hb ha hinv)

/-! Lemmas for the URL split and unsplit round trip. -/

theorem splitOnFirst_eq_some {sep : Char} {l p r : List Char}
    (h : splitOnFirst sep l = some (p, r)) : l = p ++ sep :: r ∧ sep ∉ p := by
  induction l generalizing p with
  | nil => cases h
  | cons c cs ih =>
    unfold splitOnFirst at h
    split at h
    · rename_i hc
      injection h with h2
      injection h2 with hp hr
      subst hp
      subst hr
      subst hc
      exact ⟨rfl, by simp⟩
    · rename_i hc
      cases hs : splitOnFirst sep cs with
      | none => rw [hs] at h; cases h
      | some pr =>
        obtain ⟨p2, r2⟩ := pr
        rw [hs] at h
        injection h with h2
        injection h2 with hp hr
        subst hp
        subst hr
        obtain ⟨he, hn⟩ := ih hs
        refine ⟨by rw [he]; rfl, ?_⟩
        intro hmem
        rcases List.mem_cons.mp hmem with h3 | h3
        · exact hc h3.symm
        · exact hn h3

theorem splitOnFirst_append (sep : Char) (p r : List Char) (h : sep ∉ p) :
    splitOnFirst sep (p ++ sep :: r) = some (p, r) := by
  induction p with
  | nil => simp [splitOnFirst]
  | cons c cs ih =>
    have hc : ¬(c = sep) := fun he => h (by rw [he]; exact List.mem_cons_self _ _)
    have hcs : sep ∉ cs := fun hm => h (List.mem_cons_of_mem _ hm)
    simp only [List.cons_append, splitOnFirst, List.append_eq, if_neg hc, ih hcs]

theorem splitOnFirst_eq_none {sep : Char} {l : List Char} (h : sep ∉ l) :
    splitOnFirst sep l = none := by
  induction l with
  | nil => rfl
  | cons c cs ih =>
    have hc : ¬(c = sep) := fun he => h (by rw [he]; exact List.mem_cons_self _ _)
    have hcs : sep ∉ cs := fun hm => h (List.mem_cons_of_mem _ hm)
    simp only [splitOnFirst, if_neg hc, ih hcs]

theorem not_mem_of_splitOnFirst_none {sep : Char} {l : List Char}
    (h : splitOnFirst sep l = none) : sep ∉ l := by
  induction l with
  | nil => simp
  | cons c cs ih =>
    unfold splitOnFirst at h
    split at h
    · cases h
    · rename_i hc
      cases hs : splitOnFirst sep cs with
      | none =>
        intro hmem
        rcases List.mem_cons.mp hmem with h3 | h3
        · exact hc h3.symm
        · exact ih hs h3
      | some pr =>
        obtain ⟨a, b⟩ := pr
        rw [hs] at h
        simp at h

theorem partitionOn_of_not_mem {sep : Char} {l : List Char} (h : sep ∉ l) :
    partitionOn sep l = (l, []) := by
  unfold partitionOn
  rw [splitOnFirst_eq_none h]

theorem partitionOn_append (sep : Char) (p r : List Char) (h : sep ∉ p) :
    partitionOn sep (p ++ sep :: r) = (p, r) := by
  unfold partitionOn
  rw [splitOnFirst_append sep p r h]

theorem partitionOn_spec (sep : Char) (l : List Char) :
    sep ∉ (partitionOn sep l).1 ∧
      (l = (partitionOn sep l).1 ++ sep :: (partitionOn sep l).2 ∨
        ((partitionOn sep l).1 = l ∧ (partitionOn sep l).2 = [])) := by
  unfold partitionOn
  cases hs : splitOnFirst sep l with
  | none =>
    exact ⟨not_mem_of_splitOnFirst_none hs, Or.inr ⟨rfl, rfl⟩⟩
  | some pr =>
    obtain ⟨p, r⟩ := pr
    obtain ⟨he, hn⟩ := splitOnFirst_eq_some hs
    exact ⟨hn, Or.inl he⟩

theorem takeNetloc_spec (l : List Char) :
    (∀ c ∈ (takeNetloc l).1, netlocStop c = false) ∧
      l = (takeNetloc l).1 ++ (takeNetloc l).2 ∧
      ((takeNetloc l).2 = [] ∨
        ∃ d t, (takeNetloc l).2 = d :: t ∧ netlocStop d = true) := by
  induction l with
  | nil => exact ⟨by simp [takeNetloc], rfl, Or.inl rfl⟩
  | cons c cs ih =>
    unfold takeNetloc
    by_cases hc : netlocStop c = true
    · rw [if_pos hc]
      exact ⟨by simp, rfl, Or.inr ⟨c, cs, rfl, hc⟩⟩
    · rw [if_neg hc]
      dsimp only
      obtain ⟨h1, h2, h3⟩ := ih
      refine ⟨?_, ?_, h3⟩
      · intro d hd
        rcases List.mem_cons.mp hd with h4 | h4
        · subst h4
          exact Bool.not_eq_true _ ▸ hc
        · exact h1 d h4
      · rw [List.cons_append, ← h2]

theorem takeNetloc_append (n r : List Char)
    (hn : ∀ c ∈ n, netlocStop c = false)
    (hr : r = [] ∨ ∃ d t, r = d :: t ∧ netlocStop d = true) :
    takeNetloc (n ++ r) = (n, r) := by
  induction n with
  | nil =>
    rcases hr with hr | ⟨d, t, hr, hd⟩
    · subst hr
      rfl
    · subst hr
      rw [List.nil_append]
      unfold takeNetloc
      rw [if_pos hd]
  | cons c cs ih =>
    have hc := hn c (List.mem_cons_self _ _)
    rw [List.cons_append]
    unfold takeNetloc
    rw [if_neg (by rw [hc]; simp)]
    have h5 := ih (fun d hd => hn d (List.mem_cons_of_mem _ hd))
    dsimp only
    rw [h5]

theorem parseNetloc_slashslash (t : List Char) :
    parseNetloc ('/' :: '/' :: t) = takeNetloc t := rfl

theorem parseNetloc_other (l : List Char) (h : ∀ t, l ≠ '/' :: '/' :: t) :
    parseNetloc l = ([], l) := by
  unfold parseNetloc
  split
  · rename_i t
    exact absurd rfl (h t)
  · rfl

theorem char_ofNat_toNat (n : Nat) (h : n.isValidChar) :
    (Char.ofNat n).toNat = n := by
  simp only [Char.ofNat, dif_pos h, Char.ofNatAux, Char.toNat, UInt32.toNat]
  rfl

theorem char_isLower_iff (x : Char) :
    x.isLower = true ↔ 97 ≤ x.toNat ∧ x.toNat ≤ 122 := by
  simp only [Char.isLower, Bool.and_eq_true, decide_eq_true_eq]
  constructor
  · rintro ⟨a, b⟩
    exact ⟨a, b⟩
  · rintro ⟨a, b⟩
    exact ⟨a, b⟩

theorem toLower_isAlpha (c : Char) (h : c.isAlpha = true) :
    c.toLower.isAlpha = true := by
  unfold Char.toLower
  dsimp only
  split
  · rename_i hr
    obtain ⟨h1, h2⟩ := hr
    have hv : (c.toNat + 32).isValidChar := Or.inl (by omega)
    have htn := char_ofNat_toNat (c.toNat + 32) hv
    simp only [Char.isAlpha, Bool.or_eq_true]
    right
    rw [char_isLower_iff, htn]
    omega
  · exact h

theorem toLower_schemeChar (c : Char) (h : schemeChar c = true) :
    schemeChar c.toLower = true := by
  unfold Char.toLower
  dsimp only
  split
  · rename_i hr
    obtain ⟨h1, h2⟩ := hr
    have hv : (c.toNat + 32).isValidChar := Or.inl (by omega)
    have htn := char_ofNat_toNat (c.toNat + 32) hv
    unfold schemeChar
    simp only [Bool.or_eq_true]
    left
    left
    left
    left
    simp only [Char.isAlpha, Bool.or_eq_true]
    right
    rw [char_isLower_iff, htn]
    omega
  · exact h

theorem toLower_toLower (c : Char) : c.toLower.toLower = c.toLower := by
  unfold Char.toLower
  dsimp only
  split
  · rename_i hr
    obtain ⟨h1, h2⟩ := hr
    have hv : (c.toNat + 32).isValidChar := Or.inl (by omega)
    have htn := char_ofNat_toNat (c.toNat + 32) hv
    rw [htn]
    rw [if_neg (by omega)]
  · rename_i hr
    rfl

/-- The scheme characters exclude the URL delimiter characters. -/
theorem schemeChar_ne {c : Char} (h : schemeChar c = true) (d : Char)
    (hd : schemeChar d = false) : c ≠ d := by
  intro he
  subst he
  rw [h] at hd
  cases hd

theorem not_mem_of_all_schemeChar {l : List Char}
    (h : l.all schemeChar = true) (d : Char) (hd : schemeChar d = false) :
    d ∉ l := by
  intro hmem
  have := List.all_eq_true.mp h d hmem
  rw [hd] at this
  cases this

theorem checkPre_all {pre : List Char} (h : checkPre pre = true) :
    pre.all schemeChar = true := by
  cases pre with
  | nil => cases h
  | cons c cs =>
    unfold checkPre at h
    rw [Bool.and_eq_true] at h
    rw [List.all_cons, Bool.and_eq_true]
    refine ⟨?_, h.2⟩
    unfold schemeChar
    simp [h.1]

theorem checkPre_map_toLower {pre : List Char} (h : checkPre pre = true) :
    checkPre (pre.map Char.toLower) = true := by
  cases pre with
  | nil => cases h
  | cons c cs =>
    unfold checkPre at h ⊢
    rw [Bool.and_eq_true] at h
    rw [List.map_cons]
    rw [Bool.and_eq_true]
    constructor
    · exact toLower_isAlpha c h.1
    · rw [List.all_map]
      rw [List.all_eq_true] at h ⊢
      intro d hd
      exact toLower_schemeChar d (h.2 d hd)

theorem map_toLower_idem (l : List Char) :
    (l.map Char.toLower).map Char.toLower = l.map Char.toLower := by
  rw [List.map_map]
  apply List.map_congr_left
  intro c _
  exact toLower_toLower c

theorem parseScheme_of_check {pre rest : List Char} {url : List Char}
    (hs : splitOnFirst ':' url = some (pre, rest)) (hc : checkPre pre = true) :
    parseScheme url = (pre.map Char.toLower, rest) := by
  unfold parseScheme
  rw [hs]
  dsimp only
  rw [if_pos hc]

theorem parseScheme_fail_aux {url : List Char}
    (h : ∀ pre rest, splitOnFirst ':' url = some (pre, rest) →
      checkPre pre = false) :
    parseScheme url = ([], url) := by
  unfold parseScheme
  cases hs : splitOnFirst ':' url with
  | none => rfl
  | some pr =>
    obtain ⟨pre, rest⟩ := pr
    dsimp only
    rw [if_neg (by rw [h pre rest hs]; simp)]

theorem parseScheme_spec (url : List Char) :
    (parseScheme url = ([], url) ∧
      ∀ pre rest, splitOnFirst ':' url = some (pre, rest) →
        checkPre pre = false) ∨
    (∃ pre rest, splitOnFirst ':' url = some (pre, rest) ∧
      checkPre pre = true ∧
      parseScheme url = (pre.map Char.toLower, rest)) := by
  cases hs : splitOnFirst ':' url with
  | none =>
    left
    constructor
    · exact parseScheme_fail_aux (fun p r h2 => by rw [hs] at h2; cases h2)
    · intro pre rest h
      cases h
  | some pr =>
    obtain ⟨pre, rest⟩ := pr
    by_cases hc : checkPre pre = true
    · right
      exact ⟨pre, rest, rfl, hc, parseScheme_of_check hs hc⟩
    · left
      rw [Bool.not_eq_true] at hc
      constructor
      · apply parseScheme_fail_aux
        intro p2 r2 h2
        rw [hs] at h2
        injection h2 with h3
        injection h3 with hp hr
        subst hp
        exact hc
      · intro p2 r2 h2
        injection h2 with h3
        injection h3 with hp hr
        subst hp
        exact hc

/-- No scheme is detected on a list that is empty or starts with a
non-letter. -/
theorem parseScheme_nil_of_head {o : List Char}
    (h : ∀ c cs, o = c :: cs → c.isAlpha = false) :
    parseScheme o = ([], o) := by
  apply parseScheme_fail_aux
  intro pre rest hs
  obtain ⟨ho, hnp⟩ := splitOnFirst_eq_some hs
  cases pre with
  | nil => rfl
  | cons c cs =>
    have hh : o = c :: (cs ++ ':' :: rest) := by
      rw [ho]
      rfl
    unfold checkPre
    dsimp only
    rw [h c _ hh]
    rfl

/-- Scheme detection failure transfers from a list to any of its
initial segments. -/
theorem parseScheme_nil_of_extend (o s : List Char)
    (h : ∀ pre rest, splitOnFirst ':' (o ++ s) = some (pre, rest) →
      checkPre pre = false) :
    parseScheme o = ([], o) := by
  apply parseScheme_fail_aux
  intro pre rest hs
  obtain ⟨ho, hnp⟩ := splitOnFirst_eq_some hs
  apply h pre (rest ++ s)
  rw [ho, List.append_assoc]
  exact splitOnFirst_append ':' pre (rest ++ s) hnp

theorem urlunsplit_eq (sc nl p q : List Char) :
    urlunsplitL ⟨sc, nl, p, q, []⟩ =
      if sc ≠ [] then sc ++ ':' :: unsplitCore nl p q
      else unsplitCore nl p q := by
  unfold urlunsplitL unsplitCore
  dsimp only
  rw [if_neg (by simp)]
  by_cases hsc : sc ≠ []
  · rw [if_pos hsc, if_pos hsc]
    by_cases hq : q ≠ []
    · rw [if_pos hq, if_pos hq]
      rw [List.append_assoc]
      rfl
    · rw [if_neg hq, if_neg hq]
      rw [List.append_nil]
  · rw [if_neg hsc, if_neg hsc]
    by_cases hq : q ≠ []
    · rw [if_pos hq, if_pos hq]
    · rw [if_neg hq, if_neg hq]
      rw [List.append_nil]

theorem urlsplit_after_scheme (nl p q : List Char)
    (hnl : ∀ c ∈ nl, netlocStop c = false)
    (hpq : '?' ∉ p) (hph : '#' ∉ p) (hqh : '#' ∉ q)
    (hslash : nl ≠ [] → p = [] ∨ p.head? = some '/') :
    parseNetloc (unsplitCore nl p q) =
      (nl, p ++ (if q ≠ [] then '?' :: q else [])) ∧
    partitionOn '#' (p ++ (if q ≠ [] then '?' :: q else [])) =
      (p ++ (if q ≠ [] then '?' :: q else []), []) ∧
    partitionOn '?' (p ++ (if q ≠ [] then '?' :: q else [])) = (p, q) := by
  refine ⟨?_, ?_, ?_⟩
  · unfold unsplitCore
    by_cases hb : nl ≠ [] ∨ (p ≠ [] ∧ p.take 2 = ['/', '/'])
    · rw [if_pos hb]
      have hhead : p = [] ∨ p.head? = some '/' := by
        rcases hb with hb | hb
        · exact hslash hb
        · right
          obtain ⟨hne, ht⟩ := hb
          cases p with
          | nil => cases hne rfl
          | cons a t =>
            cases t with
            | nil => simp at ht
            | cons b t2 =>
              simp [List.take] at ht
              simp [ht.1]
      have hp' : (if p ≠ [] ∧ p.head? ≠ some '/' then '/' :: p else p) = p := by
        rcases hhead with h0 | h0
        · rw [if_neg (by simp [h0])]
        · rw [if_neg (by simp [h0])]
      rw [hp', List.cons_append, List.cons_append, List.append_assoc]
      rw [parseNetloc_slashslash]
      apply takeNetloc_append nl _ hnl
      rcases hhead with h0 | h0
      · subst h0
        by_cases hq : q ≠ []
        · right
          refine ⟨'?', q, by rw [if_pos hq]; rfl, by decide⟩
        · left
          rw [if_neg hq]
          rfl
      · right
        cases p with
        | nil => cases h0
        | cons a t =>
          simp only [List.head?] at h0
          injection h0 with h1
          subst h1
          exact ⟨'/', t ++ (if q ≠ [] then '?' :: q else []),
            by rw [List.cons_append], by decide⟩
    · push_neg at hb
      obtain ⟨hnl0, hb2⟩ := hb
      subst hnl0
      rw [if_neg (by
        intro hcon
        rcases hcon with hcon | hcon
        · exact hcon rfl
        · exact hb2 hcon.1 hcon.2)]
      apply parseNetloc_other
      intro t hcontra
      cases p with
      | nil =>
        rw [List.nil_append] at hcontra
        by_cases hq : q ≠ []
        · rw [if_pos hq] at hcontra
          injection hcontra with h1 h2
          exact absurd h1 (by decide)
        · rw [if_neg hq] at hcontra
          cases hcontra
      | cons a t1 =>
        cases t1 with
        | nil =>
          rw [List.cons_append, List.nil_append] at hcontra
          injection hcontra with h1 h2
          by_cases hq : q ≠ []
          · rw [if_pos hq] at h2
            injection h2 with h3 h4
            exact absurd h3 (by decide)
          · rw [if_neg hq] at h2
            cases h2
        | cons b t2 =>
          rw [List.cons_append, List.cons_append] at hcontra
          injection hcontra with h1 h2
          injection h2 with h3 h4
          apply hb2 (by simp)
          rw [h1, h3]
          rfl
  · apply partitionOn_of_not_mem
    intro hmem
    rw [List.mem_append] at hmem
    rcases hmem with h | h
    · exact hph h
    · by_cases hq : q ≠ []
      · rw [if_pos hq] at h
        rcases List.mem_cons.mp h with h2 | h2
        · exact absurd h2 (by decide)
        · exact hqh h2
      · rw [if_neg hq] at h
        cases h
  · by_cases hq : q ≠ []
    · rw [if_pos hq]
      exact partitionOn_append '?' p q hpq
    · rw [if_neg hq, List.append_nil]
      rw [partitionOn_of_not_mem hpq]
      rw [not_not] at hq
      rw [hq]

theorem unsplitCore_scheme_nil (nl p q : List Char)
    (hpslash : p = [] ∨ p.head? = some '/') :
    parseScheme (unsplitCore nl p q) = ([], unsplitCore nl p q) := by
  apply parseScheme_nil_of_head
  intro c cs hcc
  unfold unsplitCore at hcc
  by_cases hb : nl ≠ [] ∨ (p ≠ [] ∧ p.take 2 = ['/', '/'])
  · rw [if_pos hb, List.cons_append, List.cons_append] at hcc
    injection hcc with h1 h2
    rw [← h1]
    decide
  · rw [if_neg hb] at hcc
    rcases hpslash with h0 | h0
    · subst h0
      rw [List.nil_append] at hcc
      by_cases hq : q ≠ []
      · rw [if_pos hq] at hcc
        injection hcc with h1 h2
        rw [← h1]
        decide
      · rw [if_neg hq] at hcc
        cases hcc
    · cases p with
      | nil => cases h0
      | cons a t =>
        simp only [List.head?] at h0
        injection h0 with h1
        subst h1
        rw [List.cons_append] at hcc
        injection hcc with h1 h2
        rw [← h1]
        decide

/-- Characterization of splitOnLast: the separator splits the list with
none of it remaining on the right. -/
theorem splitOnLast_eq_some {sep : Char} {l a b : List Char}
    (h : splitOnLast sep l = some (a, b)) : l = a ++ sep :: b ∧ sep ∉ b := by
  unfold splitOnLast at h
  cases hs : splitOnFirst sep l.reverse with
  | none => rw [hs] at h; cases h
  | some pr =>
    rw [hs] at h
    dsimp only at h
    injection h with h2
    injection h2 with ha hb
    obtain ⟨he, hn⟩ := splitOnFirst_eq_some hs
    subst ha
    subst hb
    constructor
    · have h3 := congrArg List.reverse he
      rw [List.reverse_reverse] at h3
      rw [h3, List.reverse_append, List.reverse_cons, List.append_assoc]
      rfl
    · intro hm
      exact hn (by simpa using hm)

/-- Computation rule for splitOnLast at the last separator. -/
theorem splitOnLast_append (sep : Char) (a b : List Char) (h : sep ∉ b) :
    splitOnLast sep (a ++ sep :: b) = some (a, b) := by
  unfold splitOnLast
  have h3 : (a ++ sep :: b).reverse = b.reverse ++ sep :: a.reverse := by
    rw [List.reverse_append, List.reverse_cons, List.append_assoc]
    rfl
  rw [h3, splitOnFirst_append sep _ _ (by simpa using h)]
  simp

theorem splitOnLast_eq_none {sep : Char} {l : List Char} (h : sep ∉ l) :
    splitOnLast sep l = none := by
  unfold splitOnLast
  rw [splitOnFirst_eq_none (by simpa using h)]

theorem not_mem_of_splitOnLast_none {sep : Char} {l : List Char}
    (h : splitOnLast sep l = none) : sep ∉ l := by
  unfold splitOnLast at h
  cases hs : splitOnFirst sep l.reverse with
  | some pr => rw [hs] at h; cases h
  | none =>
    intro hm
    exact not_mem_of_splitOnFirst_none hs (List.mem_reverse.mpr hm)

/-- The params split either leaves the path whole with empty params or
cuts it at a semicolon. -/
theorem splitparamsL_shape (p : List Char) :
    ((splitparamsL p).1 = p ∧ (splitparamsL p).2 = []) ∨
      p = (splitparamsL p).1 ++ ';' :: (splitparamsL p).2 := by
  unfold splitparamsL
  cases hsl : splitOnLast '/' p with
  | some pr =>
    dsimp only
    obtain ⟨hp, hns⟩ := splitOnLast_eq_some hsl
    cases hsf : splitOnFirst ';' pr.2 with
    | some ab =>
      dsimp only
      obtain ⟨hseg, hnab⟩ := splitOnFirst_eq_some hsf
      right
      rw [hp, hseg, List.append_assoc]
      rfl
    | none =>
      dsimp only
      left
      exact ⟨rfl, rfl⟩
  | none =>
    dsimp only
    cases hsf : splitOnFirst ';' p with
    | some ab =>
      dsimp only
      obtain ⟨hseg, hnab⟩ := splitOnFirst_eq_some hsf
      right
      exact hseg
    | none =>
      dsimp only
      left
      exact ⟨rfl, rfl⟩

/-- A path whose params came out empty is a fixed point of the params
split: its last segment holds no further semicolon. -/
theorem splitparamsL_stable {p a : List Char} (h : splitparamsL p = (a, [])) :
    splitparamsL a = (a, []) := by
  unfold splitparamsL at h
  cases hsl : splitOnLast '/' p with
  | some pr =>
    rw [hsl] at h
    dsimp only at h
    obtain ⟨hp, hns⟩ := splitOnLast_eq_some hsl
    cases hsf : splitOnFirst ';' pr.2 with
    | some ab =>
      rw [hsf] at h
      dsimp only at h
      injection h with h1 h2
      obtain ⟨hseg, hnab⟩ := splitOnFirst_eq_some hsf
      have hnsl : '/' ∉ ab.1 := by
        intro hm
        apply hns
        rw [hseg]
        exact List.mem_append.mpr (Or.inl hm)
      unfold splitparamsL
      rw [← h1, splitOnLast_append '/' pr.1 ab.1 hnsl]
      dsimp only
      rw [splitOnFirst_eq_none hnab]
    | none =>
      rw [hsf] at h
      dsimp only at h
      injection h with h1 h2
      rw [← h1]
      unfold splitparamsL
      rw [hsl]
      dsimp only
      rw [hsf]
  | none =>
    rw [hsl] at h
    dsimp only at h
    have hnsp : '/' ∉ p := not_mem_of_splitOnLast_none hsl
    cases hsf : splitOnFirst ';' p with
    | some ab =>
      rw [hsf] at h
      dsimp only at h
      injection h with h1 h2
      obtain ⟨hseg, hnab⟩ := splitOnFirst_eq_some hsf
      have hnsl : '/' ∉ ab.1 := by
        intro hm
        apply hnsp
        rw [hseg]
        exact List.mem_append.mpr (Or.inl hm)
      unfold splitparamsL
      rw [← h1, splitOnLast_eq_none hnsl]
      dsimp only
      rw [splitOnFirst_eq_none hnab]
    | none =>
      rw [hsf] at h
      dsimp only at h
      injection h with h1 h2
      rw [← h1]
      unfold splitparamsL
      rw [hsl]
      dsimp only
      rw [hsf]

/-- The params round trip returns the path unchanged or the path minus
one trailing semicolon. -/
theorem paramsRoundtrip_shape (sc p : List Char) :
    paramsRoundtrip sc p = p ∨ p = paramsRoundtrip sc p ++ [';'] := by
  unfold paramsRoundtrip
  by_cases hc : ';' ∈ p ∧ sc ∈ usesParams
  · rw [if_pos hc]
    rcases splitparamsL_shape p with ⟨h1, h2⟩ | h1
    · rw [if_neg (by rw [h2]; simp)]
      exact Or.inl h1
    · by_cases hb : (splitparamsL p).2 ≠ []
      · rw [if_pos hb]
        exact Or.inl h1.symm
      · rw [if_neg hb]
        rw [not_not] at hb
        right
        rw [hb] at h1
        exact h1
  · rw [if_neg hc]
    exact Or.inl rfl

/-- The params round trip is idempotent. -/
theorem paramsRoundtrip_idem (sc p : List Char) :
    paramsRoundtrip sc (paramsRoundtrip sc p) = paramsRoundtrip sc p := by
  by_cases hc : ';' ∈ p ∧ sc ∈ usesParams
  · by_cases hb : (splitparamsL p).2 ≠ []
    · have hpp : paramsRoundtrip sc p = p := by
        unfold paramsRoundtrip
        rw [if_pos hc, if_pos hb]
        rcases splitparamsL_shape p with ⟨h1, h2⟩ | h1
        · exact absurd h2 hb
        · exact h1.symm
      rw [hpp, hpp]
    · rw [not_not] at hb
      have hpp : paramsRoundtrip sc p = (splitparamsL p).1 := by
        unfold paramsRoundtrip
        rw [if_pos hc, if_neg (by rw [hb]; simp)]
      rw [hpp]
      have hstab : splitparamsL (splitparamsL p).1 = ((splitparamsL p).1, []) :=
        splitparamsL_stable (by rw [← hb])
      unfold paramsRoundtrip
      by_cases hc2 : ';' ∈ (splitparamsL p).1 ∧ sc ∈ usesParams
      · rw [if_pos hc2, hstab]
        dsimp only
        rw [if_neg (by simp)]
      · rw [if_neg hc2]
  · have hpp : paramsRoundtrip sc p = p := by
      unfold paramsRoundtrip
      rw [if_neg hc]
    rw [hpp, hpp]

/-- _lint_url in normal form: urlunsplit of the split components with
the fragment cleared and the path passed through the params round
trip. -/
theorem lintL_normal (u : List Char) :
    lintL u = urlunsplitL
      { urlsplitL u with
        path := paramsRoundtrip (urlsplitL u).scheme (urlsplitL u).path
        fragment := [] } := by
  unfold lintL urlunparseL urlparseL paramsRoundtrip
  dsimp only
  by_cases hc : ';' ∈ (urlsplitL u).path ∧ (urlsplitL u).scheme ∈ usesParams
  · rw [if_pos hc, if_pos hc]
  · rw [if_neg hc, if_neg hc]
    dsimp only
    rw [if_neg (by simp)]

/-- Locating the first separator in an appended list: it is the first
separator of the left part, or lies in the right part with the whole
left part separator-free. -/
theorem splitOnFirst_append_cases {sep : Char} {x y pre rest : List Char}
    (h : splitOnFirst sep (x ++ y) = some (pre, rest)) :
    (∃ r2, splitOnFirst sep x = some (pre, r2)) ∨
      (sep ∉ x ∧ ∃ pre2, pre = x ++ pre2 ∧
        splitOnFirst sep y = some (pre2, rest)) := by
  induction x generalizing pre with
  | nil =>
    right
    exact ⟨by simp, pre, by simp, h⟩
  | cons c cs ih =>
    rw [List.cons_append] at h
    unfold splitOnFirst at h
    split at h
    · rename_i hceq
      injection h with h2
      injection h2 with hp hr
      subst hp
      subst hr
      left
      refine ⟨cs, ?_⟩
      unfold splitOnFirst
      rw [if_pos hceq]
    · rename_i hcne
      cases hs : splitOnFirst sep (cs ++ y) with
      | none => rw [hs] at h; cases h
      | some pr =>
        rw [hs] at h
        dsimp only at h
        injection h with h2
        injection h2 with hp hr
        rcases ih (by rw [hs, ← hr]) with ⟨r2, hx⟩ | ⟨hnx, pre2, hpre, hy⟩
        · left
          refine ⟨r2, ?_⟩
          unfold splitOnFirst
          rw [if_neg hcne, hx]
          dsimp only
          rw [hp]
        · right
          refine ⟨?_, pre2, ?_, hy⟩
          · intro hm
            rcases List.mem_cons.mp hm with hm | hm
            · exact hcne hm.symm
            · exact hnx hm
          · rw [← hp, hpre]
            rfl

/-- A pre-colon segment holding a character that is neither a letter nor
a scheme character fails the scheme check. -/
theorem checkPre_false_of_mem {pre : List Char} {d : Char} (hmem : d ∈ pre)
    (hna : d.isAlpha = false) (hns : schemeChar d = false) :
    checkPre pre = false := by
  cases pre with
  | nil => cases hmem
  | cons c cs =>
    unfold checkPre
    dsimp only
    rcases List.mem_cons.mp hmem with h | h
    · subst h
      rw [hna]
      rfl
    · have hall : cs.all schemeChar = false := by
        rw [Bool.eq_false_iff]
        intro hall
        have h2 := List.all_eq_true.mp hall d h
        rw [hns] at h2
        cases h2
      rw [hall, Bool.and_false]

/-- Scheme detection failure transfers from a URL to any initial segment
of it followed by an optional query tail. -/
theorem parseScheme_nil_transfer (pp qtail u : List Char)
    (hfail : ∀ pre rest, splitOnFirst ':' u = some (pre, rest) →
      checkPre pre = false)
    (hpref : ∃ w, u = pp ++ w)
    (hqt : qtail = [] ∨ ∃ q2, qtail = '?' :: q2) :
    parseScheme (pp ++ qtail) = ([], pp ++ qtail) := by
  apply parseScheme_fail_aux
  intro pre rest hs
  rcases splitOnFirst_append_cases hs with ⟨r2, hx⟩ | ⟨hnx, pre2, hpre, hy⟩
  · obtain ⟨w, hw⟩ := hpref
    obtain ⟨hxe, hxn⟩ := splitOnFirst_eq_some hx
    apply hfail pre (r2 ++ w)
    rw [hw, hxe, List.append_assoc]
    exact splitOnFirst_append ':' pre _ hxn
  · rcases hqt with h | ⟨q2, h⟩
    · subst h
      cases hy
    · subst h
      have h9 : '?' ∈ pre := by
        obtain ⟨hye, hyn⟩ := splitOnFirst_eq_some hy
        cases pre2 with
        | nil =>
          rw [List.nil_append] at hye
          injection hye with ha hb
          exact absurd ha (by decide)
        | cons e es =>
          rw [List.cons_append] at hye
          injection hye with ha hb
          rw [hpre]
          apply List.mem_append.mpr
          right
          rw [← ha]
          exact List.mem_cons_self _ _
      exact checkPre_false_of_mem h9 (by decide) (by decide)

/-- Splitting the unsplit of a parse result recovers the components:
urlsplit applied to _lint_url of a URL yields the original split with
the fragment cleared and the path passed through the params round
trip. -/
theorem urlsplit_lintL (u : List Char) :
    urlsplitL (lintL u) =
      { urlsplitL u with
        path := paramsRoundtrip (urlsplitL u).scheme (urlsplitL u).path
        fragment := [] } := by
  obtain ⟨sc, r1, hS⟩ : ∃ sc r1, parseScheme u = (sc, r1) := ⟨_, _, rfl⟩
  obtain ⟨nl, r2, hN⟩ : ∃ nl r2, parseNetloc r1 = (nl, r2) := ⟨_, _, rfl⟩
  obtain ⟨r3, fr, hF⟩ : ∃ r3 fr, partitionOn '#' r2 = (r3, fr) := ⟨_, _, rfl⟩
  obtain ⟨p, q, hPQ⟩ : ∃ p q, partitionOn '?' r3 = (p, q) := ⟨_, _, rfl⟩
  have hu : urlsplitL u = ⟨sc, nl, p, q, fr⟩ := by
    unfold urlsplitL
    rw [hS]
    dsimp only
    rw [hN]
    dsimp only
    rw [hF]
    dsimp only
    rw [hPQ]
  obtain ⟨pp, hpdef⟩ : ∃ pp, paramsRoundtrip sc p = pp := ⟨_, rfl⟩
  have hshape : pp = p ∨ p = pp ++ [';'] := by
    have h := paramsRoundtrip_shape sc p
    rw [hpdef] at h
    exact h
  have hFspec := partitionOn_spec '#' r2
  rw [hF] at hFspec
  dsimp only at hFspec
  obtain ⟨hFh, hFd⟩ := hFspec
  have hPQspec := partitionOn_spec '?' r3
  rw [hPQ] at hPQspec
  dsimp only at hPQspec
  obtain ⟨hQq, hQd⟩ := hPQspec
  have hph : '#' ∉ p := by
    intro hm
    apply hFh
    rcases hQd with h | h
    · rw [h]
      exact List.mem_append.mpr (Or.inl hm)
    · rw [← h.1]
      exact hm
  have hqh : '#' ∉ q := by
    intro hm
    apply hFh
    rcases hQd with h | h
    · rw [h]
      exact List.mem_append.mpr (Or.inr (List.mem_cons_of_mem _ hm))
    · rw [h.2] at hm
      cases hm
  have hsub : ∀ d, d ∈ pp → d ∈ p := by
    rcases hshape with h | h
    · rw [h]
      exact fun d hd => hd
    · intro d hd
      rw [h]
      exact List.mem_append.mpr (Or.inl hd)
  have hpph : '#' ∉ pp := fun hm => hph (hsub _ hm)
  have hppq : '?' ∉ pp := fun hm => hQq (hsub _ hm)
  have hr3r2 : ∃ s2, r2 = r3 ++ s2 := by
    rcases hFd with h | h
    · exact ⟨'#' :: fr, h⟩
    · exact ⟨[], by rw [h.1, List.append_nil]⟩
  have hpr3 : ∃ s3, r3 = p ++ s3 := by
    rcases hQd with h | h
    · exact ⟨'?' :: q, h⟩
    · exact ⟨[], by rw [h.1, List.append_nil]⟩
  have hlintbody : lintL u = urlunsplitL ⟨sc, nl, pp, q, []⟩ := by
    rw [lintL_normal, hu]
    dsimp only
    rw [hpdef]
  rw [hlintbody, hu]
  dsimp only
  rw [hpdef]
  rw [urlunsplit_eq]
  by_cases hrr : ∃ t, r1 = '/' :: '/' :: t
  · -- netloc branch of the original split
    obtain ⟨t, ht⟩ := hrr
    rw [ht, parseNetloc_slashslash] at hN
    have hTspec := takeNetloc_spec t
    rw [hN] at hTspec
    dsimp only at hTspec
    obtain ⟨hnl, hteq, hr2shape⟩ := hTspec
    have hpslash : p = [] ∨ p.head? = some '/' := by
      cases hp0 : p with
      | nil => exact Or.inl rfl
      | cons a t1 =>
        right
        have har3 : ∃ s3, r3 = a :: s3 := by
          obtain ⟨s3, hs3⟩ := hpr3
          rw [hp0] at hs3
          exact ⟨t1 ++ s3, by rw [hs3]; rfl⟩
        obtain ⟨s3, hr3⟩ := har3
        have har2 : ∃ s2, r2 = a :: s2 := by
          obtain ⟨s2, hs2⟩ := hr3r2
          rw [hr3] at hs2
          exact ⟨s3 ++ s2, by rw [hs2]; rfl⟩
        obtain ⟨s2, hr2⟩ := har2
        have hstopa : netlocStop a = true := by
          rcases hr2shape with h | ⟨d, t2, h, hd⟩
          · rw [h] at hr2
            cases hr2
          · rw [h] at hr2
            injection hr2 with h1 h2
            rw [h1] at hd
            exact hd
        have haslash : a = '/' := by
          unfold netlocStop at hstopa
          simp only [Bool.or_eq_true, beq_iff_eq] at hstopa
          rcases hstopa with (h | h) | h
          · exact h
          · exfalso
            apply hQq
            rw [hp0, h]
            exact List.mem_cons_self _ _
          · exfalso
            apply hph
            rw [hp0, h]
            exact List.mem_cons_self _ _
        rw [haslash]
        rfl
    have hpslash2 : pp = [] ∨ pp.head? = some '/' := by
      rcases hshape with hsh | hsh
      · rw [hsh]
        exact hpslash
      · rcases hpslash with h0 | h0
        · exfalso
          rw [h0] at hsh
          exact absurd hsh.symm (by simp)
        · cases pp with
          | nil => exact Or.inl rfl
          | cons e es =>
            right
            rw [hsh, List.cons_append] at h0
            simp only [List.head?] at h0 ⊢
            exact h0
    have hAS := urlsplit_after_scheme nl pp q hnl hppq hpph hqh
      (fun _ => hpslash2)
    rcases parseScheme_spec u with ⟨hPS, hPSfail⟩ | ⟨pre, rest, hsplit, hcheck, hPS⟩
    · -- no scheme in u
      rw [hS] at hPS
      injection hPS with h1 h2
      subst h1
      rw [if_neg (by simp)]
      unfold urlsplitL
      rw [unsplitCore_scheme_nil nl pp q hpslash2]
      dsimp only
      rw [hAS.1]
      dsimp only
      rw [hAS.2.1]
      dsimp only
      rw [hAS.2.2]
    · -- scheme detected in u
      rw [hS] at hPS
      injection hPS with h1 h2
      have hscne : sc ≠ [] := by
        cases pre with
        | nil => cases hcheck
        | cons c cs =>
          rw [h1]
          simp
      rw [if_pos hscne]
      unfold urlsplitL
      have hchecksc : checkPre sc = true := by
        rw [h1]
        exact checkPre_map_toLower hcheck
      have hsclow : sc.map Char.toLower = sc := by
        rw [h1]
        exact map_toLower_idem pre
      have hnc : ':' ∉ sc :=
        not_mem_of_all_schemeChar (checkPre_all hchecksc) ':' (by decide)
      rw [parseScheme_of_check (splitOnFirst_append ':' sc _ hnc) hchecksc, hsclow]
      dsimp only
      rw [hAS.1]
      dsimp only
      rw [hAS.2.1]
      dsimp only
      rw [hAS.2.2]
  · -- no netloc branch of the original split
    push_neg at hrr
    rw [parseNetloc_other r1 hrr] at hN
    injection hN with h1 h2
    have hnl : ∀ c ∈ nl, netlocStop c = false := by
      rw [← h1]
      intro c hc
      cases hc
    have hpu : ∃ s0, r1 = p ++ s0 := by
      obtain ⟨s2, hs2⟩ := hr3r2
      obtain ⟨s3, hs3⟩ := hpr3
      exact ⟨s3 ++ s2, by rw [h2, hs2, hs3, List.append_assoc]⟩
    have hppu : ∃ w, r1 = pp ++ w := by
      obtain ⟨s0, hs0⟩ := hpu
      rcases hshape with hsh | hsh
      · exact ⟨s0, by rw [hs0, hsh]⟩
      · exact ⟨';' :: s0, by rw [hs0, hsh, List.append_assoc]; rfl⟩
    have hAS := urlsplit_after_scheme nl pp q hnl hppq hpph hqh
      (fun hcon => absurd h1 (fun he => hcon he.symm))
    have hcond : ¬(nl ≠ [] ∨ (pp ≠ [] ∧ pp.take 2 = ['/', '/'])) := by
      intro hcon
      rcases hcon with h | ⟨hne, htk⟩
      · exact h h1.symm
      · cases hp0 : pp with
        | nil => exact hne hp0
        | cons a t1 =>
          cases ht1 : t1 with
          | nil =>
            rw [hp0, ht1] at htk
            cases htk
          | cons b t2 =>
            rw [hp0, ht1] at htk
            injection htk with g1 g2
            injection g2 with g3 g4
            obtain ⟨w, hw⟩ := hppu
            apply hrr (t2 ++ w)
            rw [hw, hp0, ht1, g1, g3]
            rfl
    have hcore : unsplitCore nl pp q =
        pp ++ (if q ≠ [] then '?' :: q else []) := by
      unfold unsplitCore
      rw [if_neg hcond]
    rcases parseScheme_spec u with ⟨hPS, hPSfail⟩ | ⟨pre, rest, hsplit, hcheck, hPS⟩
    · -- no scheme in u: the core is an initial segment of u up to the
      -- optional query marker
      rw [hS] at hPS
      injection hPS with g1 g2
      subst g1
      rw [if_neg (by simp)]
      have hschemefail : parseScheme (unsplitCore nl pp q) =
          ([], unsplitCore nl pp q) := by
        rw [hcore]
        apply parseScheme_nil_transfer pp _ u hPSfail
        · obtain ⟨w, hw⟩ := hppu
          exact ⟨w, by rw [← g2]; exact hw⟩
        · by_cases hq : q ≠ []
          · right
            exact ⟨q, by rw [if_pos hq]⟩
          · left
            rw [if_neg hq]
      unfold urlsplitL
      rw [hschemefail]
      dsimp only
      rw [hAS.1]
      dsimp only
      rw [hAS.2.1]
      dsimp only
      rw [hAS.2.2]
    · -- scheme detected in u
      rw [hS] at hPS
      injection hPS with g1 g2
      have hscne : sc ≠ [] := by
        cases pre with
        | nil => cases hcheck
        | cons c cs =>
          rw [g1]
          simp
      rw [if_pos hscne]
      unfold urlsplitL
      have hchecksc : checkPre sc = true := by
        rw [g1]
        exact checkPre_map_toLower hcheck
      have hsclow : sc.map Char.toLower = sc := by
        rw [g1]
        exact map_toLower_idem pre
      have hnc : ':' ∉ sc :=
        not_mem_of_all_schemeChar (checkPre_all hchecksc) ':' (by decide)
      rw [parseScheme_of_check (splitOnFirst_append ':' sc _ hnc) hchecksc, hsclow]
      dsimp only
      rw [hAS.1]
      dsimp only
      rw [hAS.2.1]
      dsimp only
      rw [hAS.2.2]

/-! Claim theorems. -/

/-- C2 (counterexample): with base URL http a.com and banned pattern
http://a.com/private/*, the dequeued URL http://a.com/private/x is not
classified IGNORED as the claim states: the worker's elif routes a
same-origin banned URL to the leftover queue. -/
theorem C2_counterexample :
    classifyUrl "http://a.com" [] ["http://a.com/private/*"] [] 15
        "http://a.com/private/x" = UrlClass.leftover ∧
    classifyUrl "http://a.com" [] ["http://a.com/private/*"] [] 15
        "http://a.com/private/x" ≠ UrlClass.ignored := by
  constructor
  · decide
  · decide

/-- C2 (amended): classification of a dequeued, unvisited URL below the
cap: the banned same-origin URL http://a.com/private/x routes to the
leftover queue (not the ignored queue); http://a.com/public is
CRAWLABLE; http://b.com/x with no allowed patterns is IGNORED;
http://b.com/x with allowed pattern http://b.com/* is CRAWLABLE. -/
theorem C2_classification_amended :
    classifyUrl "http://a.com" [] ["http://a.com/private/*"] [] 15
        "http://a.com/private/x" = UrlClass.leftover ∧
    classifyUrl "http://a.com" [] ["http://a.com/private/*"] [] 15
        "http://a.com/public" = UrlClass.crawlable ∧
    classifyUrl "http://a.com" [] ["http://a.com/private/*"] [] 15
        "http://b.com/x" = UrlClass.ignored ∧
    classifyUrl "http://a.com" ["http://b.com/*"] ["http://a.com/private/*"] [] 15
        "http://b.com/x" = UrlClass.crawlable := by
  refine ⟨by decide, by decide, by decide, by decide⟩

/-- C5: to_metadata followed by from_metadata restores the same
configuration (base URL, allowed and banned patterns, worker count, max
pages, render-JS flag, output directory, crawl id), an identical visited
map, the same ignored set (membership-equal; from_metadata rebuilds it as
a Python set), and the identical frontier list in order. -/
theorem C5_metadata_round_trip (c : Crawl) :
    (from_metadata (to_metadata c)).base_url = c.base_url ∧
    (from_metadata (to_metadata c)).allowed_urls = c.allowed_urls ∧
    (from_metadata (to_metadata c)).banned_urls = c.banned_urls ∧
    (from_metadata (to_metadata c)).n_workers = c.n_workers ∧
    (from_metadata (to_metadata c)).max_pages = c.max_pages ∧
    (from_metadata (to_metadata c)).render_js = c.render_js ∧
    (from_metadata (to_metadata c)).output_dir = c.output_dir ∧
    (from_metadata (to_metadata c)).crawl_id = c.crawl_id ∧
    (from_metadata (to_metadata c)).visited_urls = c.visited_urls ∧
    (∀ u, u ∈ (from_metadata (to_metadata c)).ignored_urls ↔ u ∈ c.ignored_urls) ∧
    (from_metadata (to_metadata c)).queue = c.queue := by
  refine ⟨rfl, rfl, rfl, rfl, rfl, rfl, rfl, rfl, rfl, ?_, rfl⟩
  intro u
  simp [from_metadata, to_metadata, List.mem_dedup]

/-- C9: local status is a pure read: the returned Crawl is unchanged and
the counts equal the sizes of the visited, ignored, failed and queued
collections, alongside the configuration fields. -/
theorem C9_status_pure_read (c : Crawl) :
    (status c).2 = c ∧
    (status c).1.num_visited = c.visited_urls.length ∧
    (status c).1.num_ignored = c.ignored_urls.length ∧
    (status c).1.num_failed = c.failed_urls.length ∧
    (status c).1.num_queued = c.queue.length ∧
    (status c).1.crawl_id = c.crawl_id ∧
    (status c).1.base_url = c.base_url ∧
    (status c).1.max_pages = c.max_pages ∧
    (status c).1.banned_urls = c.banned_urls ∧
    (status c).1.allowed_urls = c.allowed_urls ∧
    (status c).1.n_workers = c.n_workers := by
  exact ⟨rfl, rfl, rfl, rfl, rfl, rfl, rfl, rfl, rfl, rfl, rfl⟩

/-- C10: local get_queued returns the first min(max_pages, queue length)
frontier items in queue order, leaves every other field unchanged, and
the queue afterwards holds exactly the same items (the drop rotated in
front of the popped head segment), a permutation of the original. -/
theorem C10_get_queued_frame (c : Crawl) (k : Nat) :
    (get_queued c k).1 = c.queue.take k ∧
    (get_queued c k).2 = { c with queue := c.queue.drop k ++ c.queue.take k } ∧
    ((get_queued c k).2.queue).Perm c.queue := by
  refine ⟨?_, ?_, ?_⟩
  · simp [get_queued, popLoop_eq]
  · simp [get_queued, popLoop_eq]
  · simp only [get_queued, popLoop_eq]
    calc (c.queue.drop k ++ c.queue.take k).Perm (c.queue.take k ++ c.queue.drop k) :=
          List.perm_append_comm
      _ = c.queue := c.queue.take_append_drop k

/-- C8: on a transport failure while fetching a crawlable frontier head,
the worker adds the URL to the failed set, pops the item, and changes
nothing else: no page record is written, the visited map is untouched,
and processing continues with the rest of the frontier. -/
theorem C8_transport_failure (fetch : String → FetchResult) (s : RunState)
    (item : Item) (rest : List Item)
    (hq : s.crawl.queue = item :: rest)
    (hc : classifyUrl s.crawl.base_url s.crawl.allowed_urls s.crawl.banned_urls
      (s.crawl.visited_urls.map Prod.fst) s.crawl.max_pages item.url = .crawlable)
    (hf : fetch item.url = .fail) :
    crawlStep fetch s =
      { s with
        crawl :=
          { s.crawl with
            queue := rest
            failed_urls := setAdd s.crawl.failed_urls item.url } } := by
  unfold crawlStep
  rw [hq]
  simp only [hc, hf]

/-- Witness for C8 at a concrete state: the seed of a fresh crawl fails
to fetch and lands in the failed set with everything else unchanged. -/
theorem C8_transport_failure_witness :
    crawlStep fetchAllFail ⟨exCrawl, [], [], []⟩ =
      { crawl :=
          { exCrawl with
            queue := []
            failed_urls := setAdd exCrawl.failed_urls "http://a.com" }
        leftover := []
        ignored := []
        records := [] } :=
  C8_transport_failure fetchAllFail ⟨exCrawl, [], [], []⟩
    ⟨"http://a.com", []⟩ [] rfl (by decide) rfl

/-- C4: with the single deterministic worker, a run whose initial
visited count is within max_pages keeps it within max_pages at every
intermediate step and in the finalized crawl. -/
theorem C4_visited_cap (f : String → FetchResult) (fuel : Nat) (c : Crawl)
    (h : c.visited_urls.length ≤ c.max_pages) :
    (∀ k, (crawlRun f k ⟨c, [], [], []⟩).crawl.visited_urls.length ≤ c.max_pages) ∧
    (crawl_local f fuel c).1.visited_urls.length ≤
      (crawl_local f fuel c).1.max_pages := by
  constructor
  · intro k
    exact crawlRun_visited_le f k ⟨c, [], [], []⟩ h
  · show (crawlRun f fuel ⟨c, [], [], []⟩).crawl.visited_urls.length ≤
      (crawlRun f fuel ⟨c, [], [], []⟩).crawl.max_pages
    rw [(crawlRun_cfg f fuel ⟨c, [], [], []⟩).2.2.2]
    exact crawlRun_visited_le f fuel ⟨c, [], [], []⟩ h

/-- Witness for C4 on a concrete crawl. -/
theorem C4_visited_cap_witness :
    (crawl_local fetchSelfLink 3 exCrawl).1.visited_urls.length ≤
      (crawl_local fetchSelfLink 3 exCrawl).1.max_pages :=
  (C4_visited_cap fetchSelfLink 3 exCrawl (by decide)).2

/-- C1 (counterexample): a local crawl whose seed always fails to fetch
completes normally, returning a crawl value with an empty visited map,
the seed in the failed set, and a drained frontier; the claimed fatal
error is never raised in the local branch (the raise lives in the
cloud branch of crawl() only). -/
theorem C1_counterexample :
    (crawl_local fetchAllFail 2 exCrawl).1.visited_urls = [] ∧
    (crawl_local fetchAllFail 2 exCrawl).1.failed_urls = ["http://a.com"] ∧
    (crawl_local fetchAllFail 2 exCrawl).1.queue = [] := by
  decide

/-- C1 (amended): for every local crawl started with an empty visited
map on a transport layer that always fails, crawl() returns normally (the
model is a total function) and the returned crawl's visited map is
empty. -/
theorem C1_allfail_returns_empty (f : String → FetchResult)
    (hf : ∀ u, f u = .fail) (fuel : Nat) (c : Crawl)
    (hv : c.visited_urls = []) :
    (crawl_local f fuel c).1.visited_urls = [] := by
  show (crawlRun f fuel ⟨c, [], [], []⟩).crawl.visited_urls = []
  rw [crawlRun_visited_of_allfail f hf fuel ⟨c, [], [], []⟩]
  exact hv

/-- Witness for the amended C1 at a concrete crawl. -/
theorem C1_allfail_returns_empty_witness :
    (crawl_local fetchAllFail 2 exCrawl).1.visited_urls = [] :=
  C1_allfail_returns_empty fetchAllFail (fun _ => rfl) 2 exCrawl rfl

/-- C7 (counterexample): a page whose only link is a mailto URL produces
a page record whose child_urls list contains that mailto URL (the code
filters only the re-enqueued links, not the recorded child list), and
that URL does not begin with http. -/
theorem C7_counterexample :
    (crawl_local fetchMailto 3 exCrawl).2 =
      [("http://a.com", ["mailto:a@b.c"])] ∧
    startsHttp "mailto:a@b.c" = false := by
  constructor
  · decide
  · decide

/-- C7 (amended): every item a worker step leaves on the frontier was
already queued or has a URL beginning with the literal characters http
(the startswith guard; the recorded child_urls list is not filtered). -/
theorem C7_enqueued_items_http (f : String → FetchResult) (s : RunState)
    (it : Item) (h : it ∈ (crawlStep f s).crawl.queue) :
    it ∈ s.crawl.queue ∨ startsHttp it.url = true := by
  unfold crawlStep at h
  split at h
  · exact Or.inl h
  · rename_i item rest hq
    dsimp only at h
    rw [hq]
    split at h
    · split at h
      · exact Or.inl (List.mem_cons_of_mem _ h)
      · rw [List.mem_append] at h
        rcases h with h | h
        · exact Or.inl (List.mem_cons_of_mem _ h)
        · right
          rw [List.mem_map] at h
          obtain ⟨cu, hcu, heq⟩ := h
          rw [List.mem_filter] at hcu
          rw [← heq]
          exact hcu.2
      · exact Or.inl (List.mem_cons_of_mem _ h)
    · exact Or.inl (List.mem_cons_of_mem _ h)
    · exact Or.inl (List.mem_cons_of_mem _ h)

/-- Witness for the amended C7: the self link enqueued by the first step
of the self-linking site begins with http. -/
theorem C7_enqueued_items_http_witness :
    Item.mk "http://a.com" ["http://a.com"] ∈
        (⟨exCrawl, [], [], []⟩ : RunState).crawl.queue ∨
      startsHttp "http://a.com" = true :=
  C7_enqueued_items_http fetchSelfLink ⟨exCrawl, [], [], []⟩
    (Item.mk "http://a.com" ["http://a.com"]) (by decide)

/-- C3 (counterexample): on a site whose seed links back to itself, the
completed run holds the seed in the visited map and also in the ignored
list: a URL already visited that is dequeued again is routed to the
ignored queue, so visited and ignored are not disjoint. -/
theorem C3_counterexample :
    "http://a.com" ∈
        ((crawl_local fetchSelfLink 3 exCrawl).1.visited_urls.map Prod.fst) ∧
    "http://a.com" ∈ (crawl_local fetchSelfLink 3 exCrawl).1.ignored_urls := by
  constructor
  · decide
  · decide

/-- C3 (amended): after any completed local run from a fresh state,
visited and failed are disjoint and failed and ignored are disjoint;
visited and ignored may intersect (a visited URL dequeued again is added
to the ignored queue). -/
theorem C3_partition_amended (f : String → FetchResult) (fuel : Nat)
    (c : Crawl) (hv : c.visited_urls = []) (hfd : c.failed_urls = []) :
    (∀ u ∈ (crawl_local f fuel c).1.visited_urls.map Prod.fst,
        u ∉ (crawl_local f fuel c).1.failed_urls) ∧
    (∀ u ∈ (crawl_local f fuel c).1.failed_urls,
        u ∉ (crawl_local f fuel c).1.ignored_urls) := by
  have hinv0 : DisjointInv f c.base_url c.allowed_urls ⟨c, [], [], []⟩ := by
    refine ⟨?_, ?_, ?_⟩
    · intro u hu
      rw [hfd] at hu
      cases hu
    · intro u hu
      rw [hv] at hu
      cases hu
    · intro u hu
      cases hu
  obtain ⟨hfd2, hvs2, hig2⟩ :=
    crawlRun_disjointInv f c.base_url c.allowed_urls fuel ⟨c, [], [], []⟩
      rfl rfl hinv0
  constructor
  · intro u hu hmem
    exact hvs2 u hu (hfd2 u hmem).1
  · intro u hu hmem
    rcases hig2 u hmem with h2 | h2
    · exact h2 (hfd2 u hu).1
    · rw [(hfd2 u hu).2] at h2
      cases h2

/-- Witness for the amended C3 at a concrete crawl: the seed of the
self-linking site is visited, hence not failed. -/
theorem C3_partition_amended_witness :
    "http://a.com" ∉ (crawl_local fetchSelfLink 3 exCrawl).1.failed_urls :=
  (C3_partition_amended fetchSelfLink 3 exCrawl rfl rfl).1 "http://a.com"
    (by decide)

/-- The character-list normalizer is idempotent: re-parsing the
normalized URL recovers its components with the path already a fixed
point of the params round trip. -/
theorem lintL_idem (l : List Char) : lintL (lintL l) = lintL l := by
  rw [lintL_normal (lintL l), urlsplit_lintL l]
  dsimp only
  rw [paramsRoundtrip_idem]
  exact (lintL_normal l).symm

/-- C6 (counterexample): _lint_url changes a non-fragment component.
On http://a.com/x; — a URL with no fragment at all — the params split
of urlparse yields an empty params component and urlunparse drops its
semicolon, so the path component /x; becomes /x and the URL itself
changes.  The components other than the fragment are therefore not
always preserved. -/
theorem C6_counterexample :
    lint_url "http://a.com/x;" = "http://a.com/x" ∧
    (urlsplitL (lint_url "http://a.com/x;").toList).path ≠
      (urlsplitL ("http://a.com/x;" : String).toList).path ∧
    (urlsplitL ("http://a.com/x;" : String).toList).fragment = [] := by
  refine ⟨by decide, by decide, by decide⟩

/-- C6 (amended): on every URL string accepted by the parser (modelled
domain: all-ASCII netloc without brackets, on which CPython urlsplit
raises no error), _lint_url is idempotent, and re-parsing the normalized
URL preserves the scheme, netloc and query components, clears the
fragment, and yields as path the params round trip of the original path
— the path unchanged except that the semicolon of an empty trailing
params component is dropped. -/
theorem C6_normalize_idempotent_amended (u : String)
    (_hok : urlsplitOk u.toList = true) :
    lint_url (lint_url u) = lint_url u ∧
    (urlsplitL (lint_url u).toList).scheme = (urlsplitL u.toList).scheme ∧
    (urlsplitL (lint_url u).toList).netloc = (urlsplitL u.toList).netloc ∧
    (urlsplitL (lint_url u).toList).query = (urlsplitL u.toList).query ∧
    (urlsplitL (lint_url u).toList).fragment = [] ∧
    (urlsplitL (lint_url u).toList).path =
      paramsRoundtrip (urlsplitL u.toList).scheme (urlsplitL u.toList).path := by
  have ht : (lint_url u).toList = lintL u.toList := rfl
  have hr := urlsplit_lintL u.toList
  refine ⟨?_, ?_, ?_, ?_, ?_, ?_⟩
  · show String.mk (lintL (String.mk (lintL u.toList)).toList) =
      String.mk (lintL u.toList)
    have h2 : (String.mk (lintL u.toList)).toList = lintL u.toList := rfl
    rw [h2, lintL_idem]
  · rw [ht, hr]
  · rw [ht, hr]
  · rw [ht, hr]
  · rw [ht, hr]
  · rw [ht, hr]

/-- Witness for the amended C6 at the params-dropping input itself. -/
theorem C6_normalize_idempotent_amended_witness :
    lint_url (lint_url "http://a.com/x;") = lint_url "http://a.com/x;" :=
  (C6_normalize_idempotent_amended "http://a.com/x;" (by decide)).1

end WebT
